import Mathlib

/-!
Verification development for the goquery backend's query-translation and
execution engine.  Go strings are modelled as `List Char`; the Go standard
library string helpers used by the source (strings.TrimSpace, TrimPrefix,
TrimSuffix, Trim, HasPrefix, HasSuffix, SplitN, strconv.ParseInt,
strconv.ParseFloat) are modelled below, and each source function keeps its
Go name.  Dynamically typed Go values (interface values decoded from BSON
or JSON) are modelled by the closed variant type `GoVal`.
-/

namespace GoQuery

/-- ASCII whitespace recognised by the model of strings.TrimSpace
(the Unicode-only space code points never occur in the inputs the
claims are about). -/
def goSpace (c : Char) : Bool :=
  c = ' ' || c = '\t' || c = '\n' || c = '\r' || c = '\x0b' || c = '\x0c'

/-- Left part of strings.TrimSpace. -/
def trimHead (s : List Char) : List Char := s.dropWhile goSpace

/-- Right part of strings.TrimSpace. -/
def trimTail (s : List Char) : List Char := (s.reverse.dropWhile goSpace).reverse

/-- Model of strings.TrimSpace. -/
def goTrimSpace (s : List Char) : List Char := trimTail (trimHead s)

/-- Model of strings.TrimPrefix: drops `pre` when it is a prefix, else returns
the string unchanged. -/
def goDropPre (pre s : List Char) : List Char :=
  if pre.isPrefixOf s then s.drop pre.length else s

/-- Model of strings.TrimSuffix: drops `suf` when it is a suffix, else returns
the string unchanged. -/
def goDropSuf (suf s : List Char) : List Char :=
  if suf.isSuffixOf s then s.take (s.length - suf.length) else s

/-- Model of strings.Trim with the one-character cutset `"`: removes every
leading and every trailing double-quote character. -/
def trimQuoteRuns (s : List Char) : List Char :=
  ((s.dropWhile (· = '\"')).reverse.dropWhile (· = '\"')).reverse

/-- Model of strings.SplitN(s, sep, 2) for a one-character separator:
`some (before, after)` splits at the first occurrence of `sep`,
`none` when `sep` does not occur (Go returns a one-element slice then,
which every caller in the source skips). -/
def splitFirst (sep : Char) : List Char → Option (List Char × List Char)
  | [] => none
  | c :: cs =>
    if c = sep then some ([], cs)
    else (splitFirst sep cs).map (fun p => (c :: p.1, p.2))

def openB : Char := '\x7b'

def closeB : Char := '\x7d'

/-- The character-by-character loop of splitBSONPairs (src/models/mongodb.go):
toggles the in-quotes flag on `"`, tracks brace depth outside quotes, and
splits at a comma exactly when the depth is zero and the scanner is outside
quotes; the final chunk is kept only when non-empty. -/
def splitPairsGo : List Char → Int → Bool → List Char → List (List Char)
  | [], _, _, cur => if cur.isEmpty then [] else [cur]
  | c :: cs, depth, inQ, cur =>
    let inQ2 := if c = '\"' then !inQ else inQ
    if inQ2 = false ∧ c = ',' ∧ depth = 0 then
      cur :: splitPairsGo cs depth inQ2 []
    else
      let d2 :=
        if inQ2 = false ∧ c = openB then depth + 1
        else if inQ2 = false ∧ c = closeB then depth - 1
        else depth
      splitPairsGo cs d2 inQ2 (cur ++ [c])

/-- splitBSONPairs (src/models/mongodb.go lines 594-622). -/
def splitBSONPairs (content : List Char) : List (List Char) :=
  splitPairsGo content 0 false []

/-- The character-by-character loop of splitPipelineStages, identical in the
source to the loop of splitBSONPairs. -/
def splitStagesGo : List Char → Int → Bool → List Char → List (List Char)
  | [], _, _, cur => if cur.isEmpty then [] else [cur]
  | c :: cs, depth, inQ, cur =>
    let inQ2 := if c = '\"' then !inQ else inQ
    if inQ2 = false ∧ c = ',' ∧ depth = 0 then
      cur :: splitStagesGo cs depth inQ2 []
    else
      let d2 :=
        if inQ2 = false ∧ c = openB then depth + 1
        else if inQ2 = false ∧ c = closeB then depth - 1
        else depth
      splitStagesGo cs d2 inQ2 (cur ++ [c])

/-- splitPipelineStages (src/models/mongodb.go lines 625-653). -/
def splitPipelineStages (content : List Char) : List (List Char) :=
  splitStagesGo content 0 false []

/-- One step of the quote/brace scan: the state is (brace depth, in-quotes),
updated exactly as one loop iteration of splitBSONPairs updates it. -/
def scanStep (st : Int × Bool) (c : Char) : Int × Bool :=
  let q2 := if c = '\"' then !st.2 else st.2
  let d2 :=
    if q2 = false ∧ c = openB then st.1 + 1
    else if q2 = false ∧ c = closeB then st.1 - 1
    else st.1
  (d2, q2)

/-- The scan state after reading a whole string from a given state. -/
def scanSt (s : List Char) (st : Int × Bool) : Int × Bool := s.foldl scanStep st

/-- `true` when reading the string from state `st` meets no comma at brace
depth zero outside quotes, i.e. the string has no top-level comma. -/
def noTopComma : List Char → Int × Bool → Bool
  | [], _ => true
  | c :: cs, st =>
    let q2 := if c = '\"' then !st.2 else st.2
    if q2 = false ∧ c = ',' ∧ st.1 = 0 then false
    else noTopComma cs (scanStep st c)

/-- Interleaves a comma between consecutive chunks (inverse of a splitter
that removes the commas it splits at). -/
def joinC : List (List Char) → List Char
  | [] => []
  | [e] => e
  | e :: es => e ++ ',' :: joinC es

/-- The quotes of a string are balanced: the scan ends outside quotes. -/
abbrev quotesBalanced (s : List Char) : Prop := (scanSt s (0, false)).2 = false

/-- The braces of a string are balanced for the quote-aware scan: the final
depth is zero. -/
abbrev bracesBalanced (s : List Char) : Prop := (scanSt s (0, false)).1 = 0

/-- Total length of a list of chunks. -/
def sumLen (ps : List (List Char)) : Nat := (ps.map List.length).sum

/-- A Go float64 as the source discriminates it: NaN, the two infinities, or
a finite value.  The numeric payload of a finite float is modelled as the
exact rational it denotes (IEEE rounding is irrelevant to every claim). -/
inductive GoFloat where
  | nan : GoFloat
  | inf : GoFloat
  | negInf : GoFloat
  | finite : Rat → GoFloat
deriving DecidableEq

mutual

/-- A dynamically typed Go value as decoded from BSON or JSON: the closed
variant domain over which the source's switch statements and type
assertions range.  Go type assertions and switch cases distinguish the
DYNAMIC type, so the named driver container types are separate
constructors from the unnamed ones: `vmap` models a bson.M (primitive.M)
document, `vbsonD` a bson.D (primitive.D) ordered document, `varr` a
bson.A (primitive.A) array, while `vgomap` models a plain unnamed
map[string]interface{} (e.g. from encoding/json) and `vgoarr` a plain
unnamed []interface{}.  `vint` models the int/int32/int64 cases, `vdate`
the time.Time / primitive.DateTime cases, `voidID` primitive.ObjectID,
and `vother` any other dynamic type (the default switch case). -/
inductive GoVal where
  | vstr : String → GoVal
  | vint : Int → GoVal
  | vfloat : GoFloat → GoVal
  | vbool : Bool → GoVal
  | vnull : GoVal
  | vdate : GoVal
  | voidID : GoVal
  | vother : GoVal
  | vmap : GoMap → GoVal
  | vbsonD : GoMap → GoVal
  | varr : GoArr → GoVal
  | vgomap : GoMap → GoVal
  | vgoarr : GoArr → GoVal

/-- Contents of a string-keyed Go document — a map (bson.M or plain
map[string]interface{}) in iteration order, or a bson.D in element
order. -/
inductive GoMap where
  | nil : GoMap
  | cons : String → GoVal → GoMap → GoMap

/-- Contents of an array value (bson.A or plain []interface{}) in slice
order. -/
inductive GoArr where
  | nil : GoArr
  | cons : GoVal → GoArr → GoArr

end

def strNaN : String := "NaN"

def strInf : String := "Infinity"

def strNegInf : String := "-Infinity"

mutual

/-- sanitizeValue (src/models/mongodb.go lines 656-686): a float64 that is
NaN or an infinity becomes the corresponding string; the type assertions
value.(map[string]interface{}) and value.([]interface{}) match only those
unnamed dynamic types, so only a plain map or plain slice is rebuilt with
every element sanitized; every other value — in particular a bson.M,
bson.D or bson.A container — is returned as is. -/
def sanitizeValue : GoVal → GoVal
  | .vfloat .nan => .vstr strNaN
  | .vfloat .inf => .vstr strInf
  | .vfloat .negInf => .vstr strNegInf
  | .vgomap m => .vgomap (sanitizeMap m)
  | .vgoarr a => .vgoarr (sanitizeArr a)
  | v => v

/-- The map-rebuilding loop of sanitizeValue. -/
def sanitizeMap : GoMap → GoMap
  | .nil => .nil
  | .cons k v rest => .cons k (sanitizeValue v) (sanitizeMap rest)

/-- The slice-rebuilding loop of sanitizeValue. -/
def sanitizeArr : GoArr → GoArr
  | .nil => .nil
  | .cons v rest => .cons (sanitizeValue v) (sanitizeArr rest)

end

mutual

/-- sanitizeJSONValue (src/models/query.go lines 34-68), character for
character the same algorithm as sanitizeValue: its map and slice type
assertions likewise match only the unnamed plain types. -/
def sanitizeJSONValue : GoVal → GoVal
  | .vfloat .nan => .vstr strNaN
  | .vfloat .inf => .vstr strInf
  | .vfloat .negInf => .vstr strNegInf
  | .vgomap m => .vgomap (sanitizeJSONMap m)
  | .vgoarr a => .vgoarr (sanitizeJSONArr a)
  | v => v

/-- The map-rebuilding loop of sanitizeJSONValue. -/
def sanitizeJSONMap : GoMap → GoMap
  | .nil => .nil
  | .cons k v rest => .cons k (sanitizeJSONValue v) (sanitizeJSONMap rest)

/-- The slice-rebuilding loop of sanitizeJSONValue. -/
def sanitizeJSONArr : GoArr → GoArr
  | .nil => .nil
  | .cons v rest => .cons (sanitizeJSONValue v) (sanitizeJSONArr rest)

end

/-- `true` when the float is NaN or an infinity. -/
def nonFiniteF : GoFloat → Bool
  | .nan => true
  | .inf => true
  | .negInf => true
  | .finite _ => false

mutual

/-- `true` when some float64 leaf of the value tree is NaN or an infinity,
looking inside every container kind (named or plain). -/
def containsNonFinite : GoVal → Bool
  | .vfloat f => nonFiniteF f
  | .vmap m => mapContainsNonFinite m
  | .vbsonD d => mapContainsNonFinite d
  | .varr a => arrContainsNonFinite a
  | .vgomap m => mapContainsNonFinite m
  | .vgoarr a => arrContainsNonFinite a
  | _ => false

def mapContainsNonFinite : GoMap → Bool
  | .nil => false
  | .cons _ v rest => containsNonFinite v || mapContainsNonFinite rest

def arrContainsNonFinite : GoArr → Bool
  | .nil => false
  | .cons v rest => containsNonFinite v || arrContainsNonFinite rest

end

mutual

/-- `true` for a value tree built from plain unnamed containers only
(map[string]interface{} and []interface{}), the shape produced by
encoding/json decoding — the trees sanitizeValue fully traverses. -/
def plainValue : GoVal → Bool
  | .vmap _ => false
  | .vbsonD _ => false
  | .varr _ => false
  | .vgomap m => plainMap m
  | .vgoarr a => plainArr a
  | _ => true

def plainMap : GoMap → Bool
  | .nil => true
  | .cons _ v rest => plainValue v && plainMap rest

def plainArr : GoArr → Bool
  | .nil => true
  | .cons v rest => plainValue v && plainArr rest

end

mutual

/-- The Column struct of the source: name, type tag, nullable flag,
primary-key flag, nested columns, and dotted path. -/
inductive Column where
  | mk : String → String → Bool → Bool → ColumnList → String → Column
deriving DecidableEq

/-- An ordered sequence of columns. -/
inductive ColumnList where
  | nil : ColumnList
  | cons : Column → ColumnList → ColumnList
deriving DecidableEq

end

def Column.name : Column → String
  | .mk n _ _ _ _ _ => n

def Column.typeTag : Column → String
  | .mk _ t _ _ _ _ => t

def Column.fields : Column → ColumnList
  | .mk _ _ _ _ f _ => f

def Column.path : Column → String
  | .mk _ _ _ _ _ p => p

def ColumnList.names : ColumnList → List String
  | .nil => []
  | .cons c rest => c.name :: rest.names

/-- The keys of a map in iteration order. -/
def GoMap.keys : GoMap → List String
  | .nil => []
  | .cons k _ rest => k :: rest.keys

/-- The (key, value) pairs of a map in iteration order. -/
def GoMap.toPairs : GoMap → List (String × GoVal)
  | .nil => []
  | .cons k v rest => (k, v) :: rest.toPairs

def strId : String := "_id"

def tagObjectID : String := "ObjectID"

def tagString : String := "string"

def tagNumber : String := "number"

def tagBoolean : String := "boolean"

def tagDate : String := "date"

def tagArray : String := "array"

def tagObject : String := "object"

def tagNull : String := "null"

def tagUnknown : String := "unknown"

def dotStr : String := "."

def emptyPath : String := ""

mutual

/-- inferMongoDBColumnsWithPath (src/models/mongodb.go lines 133-222):
walks the sampled document in map iteration order; the path of a field is
its key at the root and parentPath ++ "." ++ key below it; the key "_id"
always yields the non-nullable primary-key ObjectID column; otherwise the
type tag and the nested columns are inferred from the runtime value. -/
def inferMongoDBColumnsWithPath : GoMap → String → ColumnList
  | .nil, _ => .nil
  | .cons key value rest, parentPath =>
    let path := if parentPath = emptyPath then key else parentPath ++ dotStr ++ key
    if key = strId then
      .cons (.mk strId tagObjectID false true .nil path)
        (inferMongoDBColumnsWithPath rest parentPath)
    else
      let tf := inferTypeFields value path
      .cons (.mk key tf.1 true false tf.2 path)
        (inferMongoDBColumnsWithPath rest parentPath)

/-- The type switch of inferMongoDBColumnsWithPath: maps a runtime value
to its type tag and nested columns.  The case bson.A yields an array
column whose nested columns come from the first element only, and only
when that element is asserted to be a bson.M or a bson.D (a bson.D is
converted to a map and recursed on; a plain-map first element matches
neither assertion).  The cases bson.M, bson.D (converted to a map, whose
iteration the model reads in element order) and map[string]interface{}
each yield an object column recursing with the extended path; a plain
[]interface{} matches no case and falls to the default unknown tag. -/
def inferTypeFields : GoVal → String → String × ColumnList
  | .vstr _, _ => (tagString, .nil)
  | .vint _, _ => (tagNumber, .nil)
  | .vfloat _, _ => (tagNumber, .nil)
  | .vbool _, _ => (tagBoolean, .nil)
  | .vdate, _ => (tagDate, .nil)
  | .voidID, _ => (tagObjectID, .nil)
  | .varr a, path =>
    (tagArray,
      match a with
      | .cons (.vmap m) _ => inferMongoDBColumnsWithPath m path
      | .cons (.vbsonD d) _ => inferMongoDBColumnsWithPath d path
      | _ => .nil)
  | .vmap m, path => (tagObject, inferMongoDBColumnsWithPath m path)
  | .vbsonD d, path => (tagObject, inferMongoDBColumnsWithPath d path)
  | .vgomap m, path => (tagObject, inferMongoDBColumnsWithPath m path)
  | .vnull, _ => (tagNull, .nil)
  | .vother, _ => (tagUnknown, .nil)
  | .vgoarr _, _ => (tagUnknown, .nil)

end

/-- inferMongoDBColumns (src/models/mongodb.go lines 128-130). -/
def inferMongoDBColumns (doc : GoMap) : ColumnList :=
  inferMongoDBColumnsWithPath doc emptyPath

mutual

/-- The path invariant for one column given the path of its parent: the
column's path is its own name at the root and parent ++ "." ++ name below
it, and every nested column satisfies the invariant with this column's path
as parent. -/
def Column.pathOk : String → Column → Bool
  | pp, .mk n _ _ _ fs p =>
    (p = (if pp = emptyPath then n else pp ++ dotStr ++ n)) && ColumnList.pathsOk p fs

/-- The path invariant for every column of a list. -/
def ColumnList.pathsOk : String → ColumnList → Bool
  | _, .nil => true
  | pp, .cons c rest => Column.pathOk pp c && ColumnList.pathsOk pp rest

end

def quoteChars : List Char := "\"".data

def commaChars : List Char := ",".data

def openBChars : List Char := "\x7b".data

def closeBChars : List Char := "\x7d".data

def nilChars : List Char := "nil".data

def findChars : List Char := "find".data

def aggregateChars : List Char := "aggregate".data

def bsonMPre : List Char := "bson.M\x7b".data

def bsonDPre : List Char := "bson.D\x7b".data

def pipelinePre : List Char := "mongo.Pipeline\x7b".data

def collPat : List Char := "var collection = \"".data

def opPat : List Char := "var operation = \"".data

def filterStartP : List Char := "*FILTER_START".data

def filterEndP : List Char := "*FILTER_END".data

def sortStartP : List Char := "*SORT_START".data

def sortEndP : List Char := "*SORT_END".data

def limitStartP : List Char := "*LIMIT_START".data

def limitEndP : List Char := "*LIMIT_END".data

def projStartP : List Char := "*PROJECTION_START".data

def projEndP : List Char := "*PROJECTION_END".data

def pipeStartP : List Char := "*PIPELINE_START".data

def pipeEndP : List Char := "*PIPELINE_END".data

def errMissingCollection : String := "missing collection name in generated code"

def errMissingOperation : String := "missing operation type in generated code"

def errUnsupportedOpPre : String := "unsupported MongoDB operation: "

def errNestedMPre : String := "failed to parse nested bson.M: "

def errMInDPre : String := "failed to parse bson.M in bson.D: "

def errUnsupportedValuePre : String := "unsupported value type in bson.D: "

/-- One attempt of the regular expression var <name> = "([^"]+)" at a fixed
start position: the literal pattern, then a non-empty run of non-quote
characters, then a closing quote. -/
def tryCaptureAt (pat s : List Char) : Option (List Char) :=
  if pat.isPrefixOf s then
    let rest := s.drop pat.length
    let cap := rest.takeWhile (· ≠ '\"')
    if cap.isEmpty then none
    else if (rest.drop cap.length).head? = some '\"' then some cap else none
  else none

/-- Leftmost match of the assignment-line regular expression: the capture
group of the first position where the whole pattern matches (the model of
regexp.FindStringSubmatch for the two var ... = "([^"]+)" patterns). -/
def varCapture (pat : List Char) : List Char → Option (List Char)
  | [] => none
  | c :: cs =>
    match tryCaptureAt pat (c :: cs) with
    | some cap => some cap
    | none => varCapture pat cs

/-- The suffix that follows the first occurrence of `pat`, if any. -/
def restAfter (pat : List Char) : List Char → Option (List Char)
  | [] => if pat.isEmpty then some [] else none
  | c :: cs =>
    if pat.isPrefixOf (c :: cs) then some ((c :: cs).drop pat.length)
    else restAfter pat cs

/-- The characters before the first occurrence of `pat`, if any. -/
def takeTo (pat : List Char) : List Char → Option (List Char)
  | [] => if pat.isEmpty then some [] else none
  | c :: cs =>
    if pat.isPrefixOf (c :: cs) then some []
    else (takeTo pat cs).map (c :: ·)

/-- Model of the block regular expression \*X_START([\s\S]*?)\*X_END: the
content between the first start sentinel and the first end sentinel after
it (RE2 leftmost-earliest with a non-greedy group), or none when either
sentinel is missing. -/
def extractBlock (startPat endPat code : List Char) : Option (List Char) :=
  (restAfter startPat code).bind (takeTo endPat)

def int64MaxNat : Nat := 2 ^ 63 - 1

/-- The digits of a decimal literal read as a natural number. -/
def decDigitsToNat (ds : List Char) : Nat :=
  ds.foldl (fun a c => a * 10 + (c.toNat - 48)) 0

/-- Model of strconv.ParseInt(s, 10, 64): optional sign, a non-empty run of
decimal digits, and an int64 range check (Go reports ErrRange on overflow,
which every caller treats as failure). -/
def goParseInt64 (s : List Char) : Option Int :=
  match s with
  | '+' :: rest =>
    if rest.isEmpty || !rest.all Char.isDigit then none
    else if decDigitsToNat rest ≤ int64MaxNat then some (decDigitsToNat rest : Int)
    else none
  | '-' :: rest =>
    if rest.isEmpty || !rest.all Char.isDigit then none
    else if decDigitsToNat rest ≤ int64MaxNat + 1 then some (-(decDigitsToNat rest : Int))
    else none
  | _ =>
    if s.isEmpty || !s.all Char.isDigit then none
    else if decDigitsToNat s ≤ int64MaxNat then some (decDigitsToNat s : Int)
    else none

/-- Go's int32(n) conversion: wraps modulo 2^32 into [-2^31, 2^31). -/
def int32Wrap (n : Int) : Int := (n + 2 ^ 31) % 2 ^ 32 - 2 ^ 31

def lowerAscii (c : Char) : Char :=
  if 'A' ≤ c && c ≤ 'Z' then Char.ofNat (c.toNat + 32) else c

/-- Case-insensitive comparison against an all-lowercase word. -/
def lowerEqList (s t : List Char) : Bool := s.map lowerAscii == t

def infWord : List Char := "inf".data

def infinityWord : List Char := "infinity".data

def nanWord : List Char := "nan".data

def ratTenPow (k : Int) : Rat := (10 : Rat) ^ k

def ratSigned (neg : Bool) (q : Rat) : Rat := if neg then -q else q

/-- The signed exponent value of a parsed exponent part. -/
def ratExpVal (neg : Bool) (ds : List Char) : Int :=
  if neg then -(decDigitsToNat ds : Int) else (decDigitsToNat ds : Int)

/-- The decimal-literal part of the strconv.ParseFloat model: integer
digits, optional fraction, optional exponent; at least one mantissa digit
is required and the whole string must be consumed.  The value is the exact
rational denoted (IEEE rounding, hexadecimal literals, digit underscores
and the overflow error are not modelled; no claim depends on them). -/
def parseFloatBody (neg : Bool) (t : List Char) : Option GoFloat :=
  let d1 := t.takeWhile Char.isDigit
  let t1 := t.drop d1.length
  let fr : List Char × List Char :=
    match t1 with
    | '.' :: r => (r.takeWhile Char.isDigit, r.drop (r.takeWhile Char.isDigit).length)
    | _ => ([], t1)
  if d1.isEmpty && fr.1.isEmpty then none
  else
    let mant : Rat := (decDigitsToNat (d1 ++ fr.1) : Rat)
    let scale : Int := -(fr.1.length : Int)
    match fr.2 with
    | [] => some (.finite (ratSigned neg (mant * ratTenPow scale)))
    | e :: r =>
      if e = 'e' || e = 'E' then
        let er : Bool × List Char :=
          match r with
          | '+' :: r2 => (false, r2)
          | '-' :: r2 => (true, r2)
          | r2 => (false, r2)
        let ed := er.2.takeWhile Char.isDigit
        if ed.isEmpty then none
        else if (er.2.drop ed.length).isEmpty then
          some (.finite (ratSigned neg
            (mant * ratTenPow (scale + ratExpVal er.1 ed))))
        else none
      else none

/-- Model of strconv.ParseFloat(s, 64): the case-insensitive special words
Inf/Infinity (optionally signed) and NaN (unsigned), else a decimal
literal. -/
def goParseFloat (s : List Char) : Option GoFloat :=
  match s with
  | '+' :: r =>
    if lowerEqList r infWord || lowerEqList r infinityWord then some .inf
    else parseFloatBody false r
  | '-' :: r =>
    if lowerEqList r infWord || lowerEqList r infinityWord then some .negInf
    else parseFloatBody true r
  | r =>
    if lowerEqList r infWord || lowerEqList r infinityWord then some .inf
    else if lowerEqList r nanWord then some .nan
    else parseFloatBody false r

/-- Go map assignment result[key] = v on the association-list model of a
bson.M: replaces the binding of an existing key, else appends. -/
def mapSet : GoMap → String → GoVal → GoMap
  | .nil, k, v => .cons k v .nil
  | .cons k0 v0 rest, k, v =>
    if k0 = k then .cons k0 v rest else .cons k0 v0 (mapSet rest k v)

/-- The value classification of parseBSONM for a non-nested, non-nil value
string: a quoted literal becomes a string with the quote runs trimmed, else
an int64 parse is attempted, then a float parse, else the raw string is
kept. -/
def classifyBSONMValue (valueStr : List Char) : GoVal :=
  if quoteChars.isPrefixOf valueStr && quoteChars.isSuffixOf valueStr then
    .vstr (String.mk (trimQuoteRuns valueStr))
  else
    match goParseInt64 valueStr with
    | some n => .vint n
    | none =>
      match goParseFloat valueStr with
      | some f => .vfloat f
      | none => .vstr (String.mk valueStr)

mutual

/-- parseBSONM (src/models/mongodb.go lines 498-540): trims a trailing
comma and whitespace, returns the empty map for empty content, else splits
into top-level pairs and folds them into the map. -/
def parseBSONM (content : List Char) : Except String GoMap :=
  let c := goTrimSpace (goDropSuf commaChars content)
  if c.isEmpty then .ok .nil
  else parseBSONMPairs (splitBSONPairs c) .nil
termination_by 2 * (content.length + 1) + 1
decreasing_by
  have hdropSuf : ∀ suf s : List Char, (goDropSuf suf s).length ≤ s.length := by
    intro suf s
    unfold goDropSuf
    split
    · exact (List.take_sublist _ _).length_le
    · exact le_refl _
  have htrim : ∀ s : List Char, (goTrimSpace s).length ≤ s.length := by
    intro s
    unfold goTrimSpace trimHead trimTail
    calc (((s.dropWhile goSpace).reverse.dropWhile goSpace).reverse).length
        = ((s.dropWhile goSpace).reverse.dropWhile goSpace).length :=
          List.length_reverse _
      _ ≤ ((s.dropWhile goSpace).reverse).length :=
          (List.dropWhile_sublist _).length_le
      _ = (s.dropWhile goSpace).length := List.length_reverse _
      _ ≤ s.length := (List.dropWhile_sublist _).length_le
  have hsplit : ∀ (cs : List Char) (d : Int) (q : Bool) (cur : List Char),
      sumLen (splitPairsGo cs d q cur) + (splitPairsGo cs d q cur).length ≤
        cur.length + cs.length + 1 := by
    intro cs
    induction cs with
    | nil =>
      intro d q cur
      by_cases hc : cur.isEmpty
      · simp [splitPairsGo, hc, sumLen]
      · simp [splitPairsGo, hc, sumLen]
    | cons c cs ih =>
      intro d q cur
      simp only [splitPairsGo]
      generalize (if c = '\"' then !q else q) = q2
      split
      · have h2 := ih d q2 []
        simp only [sumLen, List.map_cons, List.sum_cons, List.length_cons,
          List.map_nil, List.sum_nil, List.length_nil] at h2 ⊢
        omega
      · refine le_trans (ih _ _ (cur ++ [c])) ?_
        simp
        omega
  have h1 := hsplit (goTrimSpace (goDropSuf commaChars content)) 0 false []
  have h2 := htrim (goDropSuf commaChars content)
  have h3 := hdropSuf commaChars content
  simp only [splitBSONPairs, List.length_nil] at h1 ⊢
  omega

def parseBSONMPairs (ps : List (List Char)) (acc : GoMap) : Except String GoMap :=
  match ps with
  | [] => .ok acc
  | pair :: rest =>
    match hkv : splitFirst ':' pair with
    | none => parseBSONMPairs rest acc
    | some kv =>
      let key := String.mk (trimQuoteRuns (goTrimSpace kv.1))
      let valueStr := goTrimSpace kv.2
      if hpre : bsonMPre.isPrefixOf valueStr then
        match parseBSONM (goDropSuf closeBChars (goDropPre bsonMPre valueStr)) with
        | .error e => .error (errNestedMPre ++ e)
        | .ok nested => parseBSONMPairs rest (mapSet acc key (.vmap nested))
      else if valueStr = nilChars then
        parseBSONMPairs rest (mapSet acc key .vnull)
      else
        parseBSONMPairs rest (mapSet acc key (classifyBSONMValue valueStr))
termination_by 2 * (sumLen ps + ps.length)
decreasing_by
  · simp only [sumLen, List.map_cons, List.sum_cons, List.length_cons]
    omega
  · have hdropSuf : ∀ suf s : List Char, (goDropSuf suf s).length ≤ s.length := by
      intro suf s
      unfold goDropSuf
      split
      · exact (List.take_sublist _ _).length_le
      · exact le_refl _
    have htrim : ∀ s : List Char, (goTrimSpace s).length ≤ s.length := by
      intro s
      unfold goTrimSpace trimHead trimTail
      calc (((s.dropWhile goSpace).reverse.dropWhile goSpace).reverse).length
          = ((s.dropWhile goSpace).reverse.dropWhile goSpace).length :=
            List.length_reverse _
        _ ≤ ((s.dropWhile goSpace).reverse).length :=
            (List.dropWhile_sublist _).length_le
        _ = (s.dropWhile goSpace).length := List.length_reverse _
        _ ≤ s.length := (List.dropWhile_sublist _).length_le
    have hsfLen : ∀ (s : List Char) (p : List Char × List Char),
        splitFirst ':' s = some p → p.2.length < s.length := by
      intro s
      induction s with
      | nil => intro p hp; simp [splitFirst] at hp
      | cons c cs ih =>
        intro p hp
        simp only [splitFirst] at hp
        split at hp
        · cases hp
          simp
        · cases hq : splitFirst ':' cs with
          | none => rw [hq] at hp; simp at hp
          | some q =>
            rw [hq] at hp
            have h9 : (c :: q.1, q.2) = p := by simpa using hp
            have h8 := ih q hq
            rw [← h9]
            show q.2.length < cs.length + 1
            omega
    have hkvlen : kv.2.length < pair.length := hsfLen pair kv hkv
    have hplen : bsonMPre.length ≤ (goTrimSpace kv.2).length :=
      (List.isPrefixOf_iff_prefix.mp hpre).length_le
    have hdropPre : (goDropPre bsonMPre (goTrimSpace kv.2)).length =
        (goTrimSpace kv.2).length - bsonMPre.length := by
      unfold goDropPre
      rw [if_pos hpre]
      exact List.length_drop _ _
    have h5 := hdropSuf closeBChars (goDropPre bsonMPre (goTrimSpace kv.2))
    have h6 := htrim kv.2
    have h7 : bsonMPre.length = 7 := rfl
    simp only [sumLen, List.map_cons, List.sum_cons, List.length_cons]
    omega
  · simp only [sumLen, List.map_cons, List.sum_cons, List.length_cons]
    omega
  · simp only [sumLen, List.map_cons, List.sum_cons, List.length_cons]
    omega
  · simp only [sumLen, List.map_cons, List.sum_cons, List.length_cons]
    omega

end

/-- One scanned row of the column query of fetchPostgresColumns: column
name, declared type, nullability, and primary-key membership, in the
ordinal order the backend returns (the query ends with ORDER BY
c.ordinal_position). -/
structure PgRow where
  colName : String
  dataType : String
  isNullable : Bool
  isPrimaryKey : Bool
deriving DecidableEq

/-- The row-scanning loop of fetchPostgresColumns (src/unnamed/part_003
lines 112-156): builds one Column per returned row, in row order, with
empty nested fields and path. -/
def fetchPostgresColumns : List PgRow → ColumnList
  | [] => .nil
  | r :: rs =>
    .cons (.mk r.colName r.dataType r.isNullable r.isPrimaryKey .nil "")
      (fetchPostgresColumns rs)

/-- An ordered bson.D document: a sequence of (key, value) elements. -/
abbrev BsonD := List (String × GoVal)

/-- The pair loop of parseBSOND (src/models/mongodb.go lines 550-588):
each pair must be a brace-wrapped group; its interior is split at the first
comma into key and value; the value is classified in the source's order
(nested bson.M, quoted string, nil, int64 narrowed to int32, float64), and
any other value is a hard error. -/
def parseBSONDPairs (ps : List (List Char)) (acc : BsonD) : Except String BsonD :=
  match ps with
  | [] => .ok acc
  | pair0 :: rest =>
    let pair := goTrimSpace pair0
    if openBChars.isPrefixOf pair && closeBChars.isSuffixOf pair then
      let inner := goDropSuf closeBChars (goDropPre openBChars pair)
      match splitFirst ',' inner with
      | none => parseBSONDPairs rest acc
      | some kv =>
        let key := String.mk (trimQuoteRuns (goTrimSpace kv.1))
        let valueStr := goTrimSpace kv.2
        if bsonMPre.isPrefixOf valueStr then
          match parseBSONM (goDropSuf closeBChars (goDropPre bsonMPre valueStr)) with
          | .error e => .error (errMInDPre ++ e)
          | .ok nested => parseBSONDPairs rest (acc ++ [(key, .vmap nested)])
        else if quoteChars.isPrefixOf valueStr && quoteChars.isSuffixOf valueStr then
          parseBSONDPairs rest (acc ++ [(key, .vstr (String.mk (trimQuoteRuns valueStr)))])
        else if valueStr = nilChars then
          parseBSONDPairs rest (acc ++ [(key, .vnull)])
        else
          match goParseInt64 valueStr with
          | some n => parseBSONDPairs rest (acc ++ [(key, .vint (int32Wrap n))])
          | none =>
            match goParseFloat valueStr with
            | some f => parseBSONDPairs rest (acc ++ [(key, .vfloat f)])
            | none => .error (errUnsupportedValuePre ++ String.mk valueStr)
    else parseBSONDPairs rest acc

/-- parseBSOND (src/models/mongodb.go lines 542-591): trims a trailing
comma and whitespace, returns the empty document for empty content, else
splits into top-level pairs and folds them in order. -/
def parseBSOND (content : List Char) : Except String BsonD :=
  let c := goTrimSpace (goDropSuf commaChars content)
  if c.isEmpty then .ok []
  else parseBSONDPairs (splitBSONPairs c) []

/-- The filter extraction of the find branch of executeMongoDBGoCode
(src/models/mongodb.go lines 348-365): the filter stays unset unless the
FILTER block is present, its trimmed content opens with the bson.M
constructor, the stripped interior is non-empty and parseBSONM succeeds
(a parse error is only logged). -/
def parseFilterBlock (code : List Char) : Option GoMap :=
  match extractBlock filterStartP filterEndP code with
  | none => none
  | some raw =>
    let fc := goTrimSpace raw
    if bsonMPre.isPrefixOf fc then
      let fc2 := goDropSuf closeBChars (goDropPre bsonMPre fc)
      if fc2.isEmpty then none
      else
        match parseBSONM fc2 with
        | .ok f => some f
        | .error _ => none
    else none

/-- The sort and projection extraction of the find branch of
executeMongoDBGoCode (src/models/mongodb.go lines 370-385 and 399-414):
the option stays unset unless the block is present, its trimmed content
opens with the bson.D constructor and parseBSOND succeeds. -/
def parseDBlock (startPat endPat code : List Char) : Option BsonD :=
  match extractBlock startPat endPat code with
  | none => none
  | some raw =>
    let sc := goTrimSpace raw
    if bsonDPre.isPrefixOf sc then
      let sc2 := goDropSuf closeBChars (goDropPre bsonDPre sc)
      match parseBSOND sc2 with
      | .ok d => some d
      | .error _ => none
    else none

/-- The limit extraction of the find branch of executeMongoDBGoCode
(src/models/mongodb.go lines 387-397): the trimmed block content is parsed
as a base-10 int64; a parse failure is only logged. -/
def parseLimitBlock (code : List Char) : Option Int :=
  match extractBlock limitStartP limitEndP code with
  | none => none
  | some raw => goParseInt64 (goTrimSpace raw)

/-- The pipeline extraction of the aggregate branch of executeMongoDBGoCode
(src/models/mongodb.go lines 416-439): strips the mongo.Pipeline
constructor, splits the stages, and appends every stage that opens with
the bson.D constructor and parses; failing stages are only logged. -/
def parsePipelineBlock (code : List Char) : List BsonD :=
  match extractBlock pipeStartP pipeEndP code with
  | none => []
  | some raw =>
    let pc := goDropSuf closeBChars (goDropPre pipelinePre (goTrimSpace raw))
    if pc.isEmpty then []
    else
      (splitPipelineStages pc).foldl (fun acc stage =>
        let sc := goTrimSpace stage
        if bsonDPre.isPrefixOf sc then
          let sc2 := goDropSuf closeBChars (goDropPre bsonDPre sc)
          match parseBSOND sc2 with
          | .ok s => acc ++ [s]
          | .error _ => acc
        else acc) []

/-- The find-operation options collected by executeMongoDBGoCode: the
filter and the findOptions fields that the source may set. -/
structure FindSpec where
  filter : Option GoMap
  sort : Option BsonD
  limit : Option Int
  projection : Option BsonD

/-- The structured operation recovered by the parsing front half of
executeMongoDBGoCode. -/
inductive ParsedOp where
  | find : String → FindSpec → ParsedOp
  | aggregate : String → List BsonD → ParsedOp

/-- The parsing front half of executeMongoDBGoCode (src/models/mongodb.go
lines 324-442): extracts the collection name, then the operation type,
each by its assignment-line regular expression with a hard error when the
pattern does not match; a find operation collects the optional filter,
sort, limit and projection blocks, an aggregate operation collects the
pipeline stages, and any other operation type is a hard error. -/
def parseMongoGoCode (code : List Char) : Except String ParsedOp :=
  match varCapture collPat code with
  | none => .error errMissingCollection
  | some coll =>
    match varCapture opPat code with
    | none => .error errMissingOperation
    | some opType =>
      if opType = findChars then
        .ok (.find (String.mk coll)
          ⟨parseFilterBlock code, parseDBlock sortStartP sortEndP code,
            parseLimitBlock code, parseDBlock projStartP projEndP code⟩)
      else if opType = aggregateChars then
        .ok (.aggregate (String.mk coll) (parsePipelineBlock code))
      else .error (errUnsupportedOpPre ++ String.mk opType)

def strDollarMatch : String := "$match"

def strDollarLimit : String := "$limit"

/-- The default first stage substituted for an empty pipeline:
bson.D with the single element $match: bson.M(empty). -/
def matchAllStage : BsonD := [(strDollarMatch, .vmap .nil)]

/-- The default second stage substituted for an empty pipeline:
bson.D with the single element $limit: 100. -/
def limit100Stage : BsonD := [(strDollarLimit, .vint 100)]

/-- The find-branch filter default of executeMongoDBGoCode (lines 446-449):
a nil filter is replaced by the empty match-everything bson.M. -/
def effectiveFilter (f : Option GoMap) : GoMap := f.getD .nil

/-- The aggregate-branch pipeline default of executeMongoDBGoCode (lines
464-470): an empty stage sequence is replaced by the match-all stage
followed by the limit-100 stage. -/
def prepareAggregate (pipeline : List BsonD) : List BsonD :=
  if pipeline.isEmpty then [matchAllStage, limit100Stage] else pipeline

def fenceChars : List Char := "```".data

def fenceSql : List Char := "```sql".data

/-- The response clean-up of the live GenerateSQL (src/unnamed/part_001
lines 322-332, four arguments, the sole version called by the API layer at
src/api/query_handlers.go line 109, for both dialects): the provider's
answer is passed through strings.TrimSpace and nothing else — no code
fence is stripped.  (The three-argument GenerateSQL of src/unnamed/part_000
does strip fences but has no caller.) -/
def generateSQLCleanup (raw : List Char) : List Char := goTrimSpace raw

def sysNamespace : List Char := "system.".data

/-- The collection loop of fetchMongoDBSchema (src/models/mongodb.go lines
101-122): one table per collection in enumeration order, skipping names
with the system. namespace; a collection's columns are inferred from
its sampled document, or empty when no document was sampled. -/
def fetchMongoDBSchemaTables : List (String × Option GoMap) → List (String × ColumnList)
  | [] => []
  | (collName, sample) :: rest =>
    if sysNamespace.isPrefixOf collName.data then
      fetchMongoDBSchemaTables rest
    else
      (collName,
        match sample with
        | some doc => inferMongoDBColumns doc
        | none => .nil) :: fetchMongoDBSchemaTables rest

def c1ExampleContent : List Char := "\"a\": \"x,y\", \"b\": \x7b\"c\": 1\x7d".data

def c1EntryA : List Char := "\"a\": \"x,y\"".data

def c1EntryB : List Char := " \"b\": \x7b\"c\": 1\x7d".data

def c4Code : List Char := "var collection = \"users\"\nvar operation = \"deleteMany\"".data

def c5Code : List Char := "var collection = \"users\"\nvar operation = \"find\"".data

def c7ExampleDoc : GoMap :=
  .cons strId .voidID (.cons ("addr") (.vmap (.cons ("city") (.vstr ("A")) .nil)) .nil)

def c7ExampleColumns : ColumnList :=
  .cons (.mk strId tagObjectID false true .nil strId)
    (.cons (.mk ("addr") tagObject true false
      (.cons (.mk ("city") tagString true false .nil ("addr.city")) .nil) ("addr")) .nil)

def c9DocA : GoMap := .cons ("a") (.vstr ("x")) (.cons ("b") (.vstr ("y")) .nil)

def c9DocB : GoMap := .cons ("b") (.vstr ("y")) (.cons ("a") (.vstr ("x")) .nil)

def c8Query : List Char := "SELECT * FROM users".data

/-- A NaN float64 nested inside a bson.M document, the shape of a nested
document in decoded MongoDB query results. -/
def c2BsonNested : GoVal := .vmap (.cons ("x") (.vfloat .nan) .nil)

/-- A NaN float64 nested inside a plain map[string]interface{}, the shape
of json-decoded data. -/
def c2PlainExample : GoVal := .vgomap (.cons ("x") (.vfloat .nan) .nil)

/-- A generated answer wrapped in a dialect code fence. -/
def wrapSqlFence (q : List Char) : List Char :=
  fenceSql ++ '\n' :: (q ++ '\n' :: fenceChars)

/-- A generated answer wrapped in a bare code fence. -/
def wrapBareFence (q : List Char) : List Char :=
  fenceChars ++ '\n' :: (q ++ '\n' :: fenceChars)

mutual

theorem sanitize_plain_noNF_v : ∀ v : GoVal, plainValue v = true →
    containsNonFinite (sanitizeValue v) = false := by
  intro v hv
  cases v with
  | vstr s => rfl
  | vint n => rfl
  | vfloat f => cases f <;> rfl
  | vbool b => rfl
  | vnull => rfl
  | vdate => rfl
  | voidID => rfl
  | vother => rfl
  | vmap m => simp [plainValue] at hv
  | vbsonD d => simp [plainValue] at hv
  | varr a => simp [plainValue] at hv
  | vgomap m =>
    have h := sanitize_plain_noNF_m m (by simpa [plainValue] using hv)
    simp only [sanitizeValue, containsNonFinite]
    exact h
  | vgoarr a =>
    have h := sanitize_plain_noNF_a a (by simpa [plainValue] using hv)
    simp only [sanitizeValue, containsNonFinite]
    exact h

theorem sanitize_plain_noNF_m : ∀ m : GoMap, plainMap m = true →
    mapContainsNonFinite (sanitizeMap m) = false := by
  intro m hm
  cases m with
  | nil => rfl
  | cons k v rest =>
    simp only [plainMap, Bool.and_eq_true] at hm
    simp only [sanitizeMap, mapContainsNonFinite, Bool.or_eq_false_iff]
    exact ⟨sanitize_plain_noNF_v v hm.1, sanitize_plain_noNF_m rest hm.2⟩

theorem sanitize_plain_noNF_a : ∀ a : GoArr, plainArr a = true →
    arrContainsNonFinite (sanitizeArr a) = false := by
  intro a ha
  cases a with
  | nil => rfl
  | cons v rest =>
    simp only [plainArr, Bool.and_eq_true] at ha
    simp only [sanitizeArr, arrContainsNonFinite, Bool.or_eq_false_iff]
    exact ⟨sanitize_plain_noNF_v v ha.1, sanitize_plain_noNF_a rest ha.2⟩

end

mutual

theorem sanitize_idem_v : ∀ v : GoVal, sanitizeValue (sanitizeValue v) = sanitizeValue v := by
  intro v
  cases v with
  | vstr s => rfl
  | vint n => rfl
  | vfloat f => cases f <;> rfl
  | vbool b => rfl
  | vnull => rfl
  | vdate => rfl
  | voidID => rfl
  | vother => rfl
  | vmap m => rfl
  | vbsonD d => rfl
  | varr a => rfl
  | vgomap m =>
    simp only [sanitizeValue]
    rw [sanitize_idem_m m]
  | vgoarr a =>
    simp only [sanitizeValue]
    rw [sanitize_idem_a a]

theorem sanitize_idem_m : ∀ m : GoMap, sanitizeMap (sanitizeMap m) = sanitizeMap m := by
  intro m
  cases m with
  | nil => rfl
  | cons k v rest =>
    simp only [sanitizeMap]
    rw [sanitize_idem_v v, sanitize_idem_m rest]

theorem sanitize_idem_a : ∀ a : GoArr, sanitizeArr (sanitizeArr a) = sanitizeArr a := by
  intro a
  cases a with
  | nil => rfl
  | cons v rest =>
    simp only [sanitizeArr]
    rw [sanitize_idem_v v, sanitize_idem_a rest]

end

mutual

theorem sanitizeJSON_eq_v : ∀ v : GoVal, sanitizeJSONValue v = sanitizeValue v := by
  intro v
  cases v with
  | vstr s => rfl
  | vint n => rfl
  | vfloat f => cases f <;> rfl
  | vbool b => rfl
  | vnull => rfl
  | vdate => rfl
  | voidID => rfl
  | vother => rfl
  | vmap m => rfl
  | vbsonD d => rfl
  | varr a => rfl
  | vgomap m =>
    simp only [sanitizeJSONValue, sanitizeValue]
    rw [sanitizeJSON_eq_m m]
  | vgoarr a =>
    simp only [sanitizeJSONValue, sanitizeValue]
    rw [sanitizeJSON_eq_a a]

theorem sanitizeJSON_eq_m : ∀ m : GoMap, sanitizeJSONMap m = sanitizeMap m := by
  intro m
  cases m with
  | nil => rfl
  | cons k v rest =>
    simp only [sanitizeJSONMap, sanitizeMap]
    rw [sanitizeJSON_eq_v v, sanitizeJSON_eq_m rest]

theorem sanitizeJSON_eq_a : ∀ a : GoArr, sanitizeJSONArr a = sanitizeArr a := by
  intro a
  cases a with
  | nil => rfl
  | cons v rest =>
    simp only [sanitizeJSONArr, sanitizeArr]
    rw [sanitizeJSON_eq_v v, sanitizeJSON_eq_a rest]

end

/-- C2 counterexample: a NaN float64 nested inside a bson.M document — the
dynamic type nested documents of decoded MongoDB results actually carry —
passes through sanitizeValue unchanged, because the source's type
assertions match only the unnamed map and slice types; the sanitized
result still contains a non-finite float, refuting the claimed
guarantee. -/
theorem sanitize_misses_bson_nested :
    sanitizeValue c2BsonNested = c2BsonNested
    ∧ containsNonFinite (sanitizeValue c2BsonNested) = true :=
  ⟨rfl, by decide⟩

/-- C2 as amended: sanitizeValue maps every NaN / positive-infinity /
negative-infinity float64 it reaches to the strings "NaN" / "Infinity" /
"-Infinity" and leaves every other leaf unchanged, but it recurses only
through plain map[string]interface{} and []interface{} containers; values
of the named container types bson.M, bson.A and bson.D pass through
unchanged, so the result is guaranteed free of non-finite floats only for
trees built from plain containers; sanitizeJSONValue (the query.go copy)
agrees with sanitizeValue everywhere. -/
theorem sanitizeValue_nonfinite_to_strings :
    (∀ v : GoVal, plainValue v = true → containsNonFinite (sanitizeValue v) = false)
    ∧ sanitizeValue (.vfloat .nan) = .vstr strNaN
    ∧ sanitizeValue (.vfloat .inf) = .vstr strInf
    ∧ sanitizeValue (.vfloat .negInf) = .vstr strNegInf
    ∧ (∀ q : Rat, sanitizeValue (.vfloat (.finite q)) = .vfloat (.finite q))
    ∧ (∀ s, sanitizeValue (.vstr s) = .vstr s)
    ∧ (∀ n, sanitizeValue (.vint n) = .vint n)
    ∧ (∀ b, sanitizeValue (.vbool b) = .vbool b)
    ∧ sanitizeValue .vnull = .vnull
    ∧ sanitizeValue .vdate = .vdate
    ∧ sanitizeValue .voidID = .voidID
    ∧ sanitizeValue .vother = .vother
    ∧ (∀ m, sanitizeValue (.vmap m) = .vmap m)
    ∧ (∀ a, sanitizeValue (.varr a) = .varr a)
    ∧ (∀ d, sanitizeValue (.vbsonD d) = .vbsonD d)
    ∧ (∀ v, sanitizeJSONValue v = sanitizeValue v) :=
  ⟨sanitize_plain_noNF_v, rfl, rfl, rfl, fun _ => rfl, fun _ => rfl, fun _ => rfl,
    fun _ => rfl, rfl, rfl, rfl, rfl, fun _ => rfl, fun _ => rfl, fun _ => rfl,
    sanitizeJSON_eq_v⟩

/-- Witness for the amended C2 at a NaN nested in a plain map. -/
theorem sanitizeValue_nonfinite_to_strings_witness :
    plainValue c2PlainExample = true
    ∧ containsNonFinite (sanitizeValue c2PlainExample) = false :=
  ⟨by decide, sanitizeValue_nonfinite_to_strings.1 c2PlainExample (by decide)⟩

/-- C3: Sanitize is total (it yields a result for every value tree) and
idempotent, and so is its query.go copy sanitizeJSONValue. -/
theorem sanitizeValue_total_and_idempotent :
    (∀ v : GoVal, ∃ r, sanitizeValue v = r)
    ∧ (∀ v : GoVal, sanitizeValue (sanitizeValue v) = sanitizeValue v)
    ∧ (∀ v : GoVal, sanitizeJSONValue (sanitizeJSONValue v) = sanitizeJSONValue v) :=
  ⟨fun v => ⟨sanitizeValue v, rfl⟩, sanitize_idem_v,
    fun v => by rw [sanitizeJSON_eq_v, sanitizeJSON_eq_v]; exact sanitize_idem_v v⟩

/-- C6: executing an aggregate operation whose parsed stage sequence is
empty substitutes exactly the two-stage default pipeline, a
match-everything stage followed by a limit-100 stage, while a non-empty
parsed pipeline is passed through unchanged. -/
theorem empty_pipeline_default_substitution :
    prepareAggregate [] =
      [[(strDollarMatch, GoVal.vmap GoMap.nil)], [(strDollarLimit, GoVal.vint 100)]]
    ∧ (∀ stages : List BsonD, stages ≠ [] → prepareAggregate stages = stages) := by
  constructor
  · rfl
  · intro stages h
    unfold prepareAggregate
    simp [h]

/-- Witness for C6 at the concrete one-stage pipeline [matchAllStage]. -/
theorem empty_pipeline_default_substitution_witness :
    ([matchAllStage] : List BsonD) ≠ [] ∧
      prepareAggregate [matchAllStage] = [matchAllStage] :=
  ⟨by simp, empty_pipeline_default_substitution.2 [matchAllStage] (by simp)⟩

mutual

theorem infer_paths_ok : ∀ (doc : GoMap) (pp : String),
    ColumnList.pathsOk pp (inferMongoDBColumnsWithPath doc pp) = true := by
  intro doc pp
  cases doc with
  | nil => rfl
  | cons key value rest =>
    simp only [inferMongoDBColumnsWithPath]
    by_cases hid : key = strId
    · simp only [hid, if_pos rfl, ColumnList.pathsOk, Column.pathOk]
      rw [infer_paths_ok rest pp]
      simp
    · rw [if_neg hid]
      simp only [ColumnList.pathsOk, Column.pathOk]
      rw [infer_paths_ok rest pp, inferTF_paths_ok value]
      simp

theorem inferTF_paths_ok : ∀ (v : GoVal) (path : String),
    ColumnList.pathsOk path (inferTypeFields v path).2 = true := by
  intro v path
  cases v with
  | vstr s => rfl
  | vint n => rfl
  | vfloat f => rfl
  | vbool b => rfl
  | vnull => rfl
  | vdate => rfl
  | voidID => rfl
  | vother => rfl
  | vmap m => exact infer_paths_ok m path
  | vbsonD d => exact infer_paths_ok d path
  | vgomap m => exact infer_paths_ok m path
  | vgoarr a => rfl
  | varr a =>
    cases a with
    | nil => rfl
    | cons hd tl =>
      cases hd with
      | vmap m => exact infer_paths_ok m path
      | vbsonD d => exact infer_paths_ok d path
      | vstr s => rfl
      | vint n => rfl
      | vfloat f => rfl
      | vbool b => rfl
      | vnull => rfl
      | vdate => rfl
      | voidID => rfl
      | vother => rfl
      | varr a2 => rfl
      | vgomap m => rfl
      | vgoarr a2 => rfl

end

/-- C7: every column produced by document-store schema inference has a
path equal to its parent's path extended with "." and its own name (its
bare name at the root), recursively down nested and array-element columns;
in particular the document with an identifier and a nested address object
yields an object column addr whose single nested column city has path
addr.city. -/
theorem infer_columns_path_invariant :
    (∀ (doc : GoMap) (pp : String),
      ColumnList.pathsOk pp (inferMongoDBColumnsWithPath doc pp) = true)
    ∧ inferMongoDBColumns c7ExampleDoc = c7ExampleColumns :=
  ⟨infer_paths_ok, rfl⟩

theorem infer_names_eq_keys : ∀ (doc : GoMap) (pp : String),
    (inferMongoDBColumnsWithPath doc pp).names = doc.keys := by
  intro doc pp
  cases doc with
  | nil => rfl
  | cons key value rest =>
    simp only [inferMongoDBColumnsWithPath, GoMap.keys]
    by_cases hid : key = strId
    · simp only [hid, if_pos rfl, ColumnList.names, Column.name]
      rw [infer_names_eq_keys rest pp]
    · rw [if_neg hid]
      simp only [ColumnList.names, Column.name]
      rw [infer_names_eq_keys rest pp]

theorem pg_columns_names : ∀ rows : List PgRow,
    (fetchPostgresColumns rows).names = rows.map PgRow.colName := by
  intro rows
  induction rows with
  | nil => rfl
  | cons r rs ih =>
    simp only [fetchPostgresColumns, ColumnList.names, Column.name, List.map_cons]
    rw [ih]

theorem mongo_tables_names : ∀ colls : List (String × Option GoMap),
    (fetchMongoDBSchemaTables colls).map Prod.fst =
      (colls.map Prod.fst).filter (fun n => !(sysNamespace.isPrefixOf n.data)) := by
  intro colls
  induction colls with
  | nil => rfl
  | cons c rest ih =>
    obtain ⟨name, sample⟩ := c
    by_cases hs : sysNamespace.isPrefixOf name.data = true
    · simp [fetchMongoDBSchemaTables, List.filter_cons, hs, ih]
    · simp [fetchMongoDBSchemaTables, List.filter_cons, hs, ih]

/-- C9 as amended: relational column order follows the backend's ordinal
row order and document-store table order follows the collection
enumeration order with system collections skipped, and inference is a
deterministic function of the sampled document's iteration order (columns
appear exactly in that order); the order is therefore only as stable as Go
map iteration, which is not fixed. -/
theorem schema_order_amended :
    (∀ rows : List PgRow, (fetchPostgresColumns rows).names = rows.map PgRow.colName)
    ∧ (∀ colls : List (String × Option GoMap),
        (fetchMongoDBSchemaTables colls).map Prod.fst =
          (colls.map Prod.fst).filter (fun n => !(sysNamespace.isPrefixOf n.data)))
    ∧ (∀ (doc : GoMap) (pp : String),
        (inferMongoDBColumnsWithPath doc pp).names = doc.keys) :=
  ⟨pg_columns_names, mongo_tables_names, infer_names_eq_keys⟩

/-- C9 counterexample: two iteration orders of the same two-field document
(the second is the reverse of the first, so the map contents are equal)
give different inferred column sequences, so document-store schema
introspection is not a fixed-order function of the map contents. -/
theorem schema_order_map_iteration_counterexample :
    c9DocB.toPairs = c9DocA.toPairs.reverse ∧
      inferMongoDBColumns c9DocA ≠ inferMongoDBColumns c9DocB := by
  constructor
  · rfl
  · decide

theorem stagesGo_eq_pairsGo : ∀ (cs : List Char) (d : Int) (q : Bool) (cur : List Char),
    splitStagesGo cs d q cur = splitPairsGo cs d q cur := by
  intro cs
  induction cs with
  | nil => intro d q cur; rfl
  | cons c cs ih =>
    intro d q cur
    simp only [splitStagesGo, splitPairsGo, ih]

theorem splitPairsGo_eq_nil : ∀ (cs : List Char) (d : Int) (q : Bool) (cur : List Char),
    splitPairsGo cs d q cur = [] → cs = [] ∧ cur = [] := by
  intro cs
  induction cs with
  | nil =>
    intro d q cur h
    simp only [splitPairsGo] at h
    by_cases hc : cur.isEmpty
    · exact ⟨rfl, by simpa using hc⟩
    · rw [if_neg hc] at h
      exact absurd h (by simp)
  | cons c cs ih =>
    intro d q cur h
    simp only [splitPairsGo] at h
    generalize (if c = '\"' then !q else q) = q2 at h
    split at h
    · exact absurd h (by simp)
    · exact absurd (ih _ _ _ h).2 (by simp)

theorem joinC_cons_cons : ∀ (e e₂ : List Char) (es : List (List Char)),
    joinC (e :: e₂ :: es) = e ++ ',' :: joinC (e₂ :: es) :=
  fun _ _ _ => rfl

theorem splitPairsGo_join : ∀ (cs : List Char) (d : Int) (q : Bool) (cur : List Char),
    joinC (splitPairsGo cs d q cur) = cur ++ cs ∨
      joinC (splitPairsGo cs d q cur) ++ [','] = cur ++ cs := by
  intro cs
  induction cs with
  | nil =>
    intro d q cur
    left
    by_cases hc : cur.isEmpty
    · have : cur = [] := by simpa using hc
      simp [splitPairsGo, hc, joinC, this]
    · simp [splitPairsGo, hc, joinC]
  | cons c cs ih =>
    intro d q cur
    simp only [splitPairsGo]
    generalize (if c = '\"' then !q else q) = q2
    split
    · rename_i hcond
      obtain ⟨hqf, hcc, hdd⟩ := hcond
      subst hcc hdd hqf
      rcases hrest : splitPairsGo cs 0 false [] with _ | ⟨e, es⟩
      · have h0 := splitPairsGo_eq_nil cs 0 false [] hrest
        right
        rw [h0.1]
        rfl
      · have hIH := ih 0 false []
        rw [hrest] at hIH
        simp only [List.nil_append] at hIH
        rw [joinC_cons_cons]
        rcases hIH with h | h
        · left
          rw [h]
        · right
          rw [← h]
          simp
    · generalize (if q2 = false ∧ c = openB then d + 1
        else if q2 = false ∧ c = closeB then d - 1 else d) = d2
      rcases ih d2 q2 (cur ++ [c]) with h | h
      · left
        rw [h]
        simp
      · right
        rw [h]
        simp

theorem scanSt_cons : ∀ (c : Char) (cs : List Char) (st : Int × Bool),
    scanSt (c :: cs) st = scanSt cs (scanStep st c) :=
  fun _ _ _ => rfl

theorem scanSt_append : ∀ (xs ys : List Char) (st : Int × Bool),
    scanSt (xs ++ ys) st = scanSt ys (scanSt xs st) := by
  intro xs ys st
  simp [scanSt, List.foldl_append]

theorem noTopComma_append : ∀ (xs ys : List Char) (st : Int × Bool),
    noTopComma (xs ++ ys) st = (noTopComma xs st && noTopComma ys (scanSt xs st)) := by
  intro xs
  induction xs with
  | nil => intro ys st; simp [noTopComma, scanSt]
  | cons c xs ih =>
    intro ys st
    simp only [List.cons_append, noTopComma, List.append_eq]
    generalize (if c = '\"' then !st.2 else st.2) = q2
    split
    · simp
    · rw [ih, scanSt_cons]

theorem splitPairsGo_entries : ∀ (cs : List Char) (d : Int) (q : Bool) (cur : List Char),
    noTopComma cur (0, false) = true →
    scanSt cur (0, false) = (d, q) →
    ∀ e ∈ splitPairsGo cs d q cur, noTopComma e (0, false) = true := by
  intro cs
  induction cs with
  | nil =>
    intro d q cur h1 h2 e he
    simp only [splitPairsGo] at he
    by_cases hc : cur.isEmpty
    · rw [if_pos hc] at he
      simp at he
    · rw [if_neg hc] at he
      rw [List.mem_singleton] at he
      subst he
      exact h1
  | cons c cs ih =>
    intro d q cur h1 h2 e he
    simp only [splitPairsGo] at he
    generalize hq2 : (if c = '\"' then !q else q) = q2 at he
    split at he
    · rename_i hcond
      obtain ⟨hqf, hcc, hdd⟩ := hcond
      rcases List.mem_cons.mp he with rfl | hmem
      · exact h1
      · subst hqf hdd
        exact ih 0 false [] rfl rfl e hmem
    · rename_i hcond
      have hA : noTopComma (cur ++ [c]) (0, false) = true := by
        rw [noTopComma_append, h1, h2]
        simp only [noTopComma, Bool.true_and]
        rw [if_neg (by simpa [hq2] using hcond)]
      have hB : scanSt (cur ++ [c]) (0, false) =
          ((if q2 = false ∧ c = openB then d + 1
            else if q2 = false ∧ c = closeB then d - 1 else d), q2) := by
        rw [scanSt_append, h2]
        simp only [scanSt, List.foldl_cons, List.foldl_nil, scanStep]
        rw [hq2]
      exact ih _ _ (cur ++ [c]) hA hB e he

/-- C1: for every mapping-literal content string with balanced braces and
balanced quotes, splitBSONPairs splits only at commas at brace depth zero
outside quoted strings: joining the returned entries with commas restores
the content (up to one trailing split comma) and no entry contains a
top-level comma of its own; on the content of the example literal with a
quoted comma and a nested brace group it returns exactly the two entries
for keys a and b, and splitPipelineStages is the same splitter. -/
theorem splitBSONPairs_top_level_only :
    (∀ content : List Char, quotesBalanced content → bracesBalanced content →
      (joinC (splitBSONPairs content) = content ∨
        joinC (splitBSONPairs content) ++ commaChars = content)
      ∧ (∀ e ∈ splitBSONPairs content, noTopComma e (0, false) = true))
    ∧ splitBSONPairs c1ExampleContent = [c1EntryA, c1EntryB]
    ∧ (∀ s, splitPipelineStages s = splitBSONPairs s) := by
  refine ⟨fun content _ _ => ⟨?_, ?_⟩, ?_, fun s => ?_⟩
  · have h := splitPairsGo_join content 0 false []
    have hc : commaChars = [','] := rfl
    rw [hc]
    simpa [splitBSONPairs] using h
  · exact splitPairsGo_entries content 0 false [] rfl rfl
  · decide
  · exact stagesGo_eq_pairsGo s 0 false []

/-- Witness for C1 at the example content of
the literal with a quoted comma and a nested brace group. -/
theorem splitBSONPairs_top_level_only_witness :
    quotesBalanced c1ExampleContent ∧ bracesBalanced c1ExampleContent ∧
    (joinC (splitBSONPairs c1ExampleContent) = c1ExampleContent ∨
      joinC (splitBSONPairs c1ExampleContent) ++ commaChars = c1ExampleContent) ∧
    (∀ e ∈ splitBSONPairs c1ExampleContent, noTopComma e (0, false) = true) :=
  ⟨by decide, by decide,
    (splitBSONPairs_top_level_only.1 c1ExampleContent (by decide) (by decide)).1,
    (splitBSONPairs_top_level_only.1 c1ExampleContent (by decide) (by decide)).2⟩

theorem parseBSONMPairs_ok :
    ∀ (ps : List (List Char)) (acc : GoMap), ∃ m, parseBSONMPairs ps acc = .ok m := by
  refine parseBSONMPairs.induct
    (fun c => ∃ m, parseBSONM c = .ok m)
    (fun ps acc => ∃ m, parseBSONMPairs ps acc = .ok m)
    ?_ ?_ ?_ ?_ ?_ ?_ ?_ ?_
  · intro content c hc
    exact ⟨.nil, by rw [parseBSONM.eq_def]; simp [hc]⟩
  · intro content c hc h2
    obtain ⟨m, hm⟩ := h2
    exact ⟨m, by rw [parseBSONM.eq_def]; simp [hc, hm]⟩
  · intro acc
    exact ⟨acc, by rw [parseBSONMPairs.eq_def]⟩
  · intro acc pair rest hkv h2
    obtain ⟨m, hm⟩ := h2
    refine ⟨m, ?_⟩
    rw [parseBSONMPairs.eq_def]
    split
    · rename_i heq
      exact absurd heq (by simp)
    · rename_i pair2 rest2 heq
      injection heq with he1 he2
      subst he1
      subst he2
      split
      · exact hm
      · rename_i kv heq2
        rw [hkv] at heq2
        simp at heq2
  · intro acc pair rest kv hkv valueStr hpre e he h1
    obtain ⟨m, hm⟩ := h1
    rw [hm] at he
    exact absurd he (by simp)
  · intro acc pair rest kv hkv key valueStr hpre nested hnested h1 h2
    obtain ⟨m, hm⟩ := h2
    refine ⟨m, ?_⟩
    rw [parseBSONMPairs.eq_def]
    split
    · rename_i heq
      exact absurd heq (by simp)
    · rename_i pair2 rest2 heq
      injection heq with he1 he2
      subst he1
      subst he2
      split
      · rename_i heq2
        rw [hkv] at heq2
        simp at heq2
      · rename_i kv2 heq2
        rw [hkv] at heq2
        have hkv2 : kv2 = kv := by injection heq2 with h; exact h.symm
        subst hkv2
        rw [dif_pos hpre, hnested]
        exact hm
  · intro acc pair rest kv hkv key valueStr hpre hnil h2
    obtain ⟨m, hm⟩ := h2
    refine ⟨m, ?_⟩
    rw [parseBSONMPairs.eq_def]
    split
    · rename_i heq
      exact absurd heq (by simp)
    · rename_i pair2 rest2 heq
      injection heq with he1 he2
      subst he1
      subst he2
      split
      · rename_i heq2
        rw [hkv] at heq2
        simp at heq2
      · rename_i kv2 heq2
        rw [hkv] at heq2
        have hkv2 : kv2 = kv := by injection heq2 with h; exact h.symm
        subst hkv2
        rw [dif_neg hpre, if_pos hnil]
        exact hm
  · intro acc pair rest kv hkv key valueStr hpre hnil h2
    obtain ⟨m, hm⟩ := h2
    refine ⟨m, ?_⟩
    rw [parseBSONMPairs.eq_def]
    split
    · rename_i heq
      exact absurd heq (by simp)
    · rename_i pair2 rest2 heq
      injection heq with he1 he2
      subst he1
      subst he2
      split
      · rename_i heq2
        rw [hkv] at heq2
        simp at heq2
      · rename_i kv2 heq2
        rw [hkv] at heq2
        have hkv2 : kv2 = kv := by injection heq2 with h; exact h.symm
        subst hkv2
        rw [dif_neg hpre, if_neg hnil]
        exact hm

/-- C10: parseBSONM never fails: for every input content string it returns
a mapping with a nil error; its only error branch propagates from the
recursive call on a nested mapping literal, which itself never errors, so
a filter block is always either parsed or silently reduced to fewer
entries. -/
theorem parseBSONM_never_fails :
    ∀ content : List Char, ∃ m, parseBSONM content = Except.ok m := by
  intro content
  by_cases hc : (goTrimSpace (goDropSuf commaChars content)).isEmpty
  · exact ⟨.nil, by rw [parseBSONM.eq_def]; simp [hc]⟩
  · obtain ⟨m, hm⟩ :=
      parseBSONMPairs_ok (splitBSONPairs (goTrimSpace (goDropSuf commaChars content))) .nil
    exact ⟨m, by rw [parseBSONM.eq_def]; simp [hc, hm]⟩

/-- C4 counterexample: on an input whose collection assignment line and
operation assignment line are both present and matchable, but whose
operation is deleteMany, the parser still fails (with the unsupported
operation error), so a parse failure does not imply a missing assignment
line. -/
theorem parse_fails_on_unsupported_operation :
    varCapture collPat c4Code = some ("users".data)
    ∧ varCapture opPat c4Code = some ("deleteMany".data)
    ∧ parseMongoGoCode c4Code = .error (errUnsupportedOpPre ++ "deleteMany") := by
  refine ⟨by decide, by decide, ?_⟩
  rfl

/-- C4 as amended: parsing fails exactly when the collection assignment
line cannot be matched, or the operation assignment line cannot be
matched, or the matched operation is neither find nor aggregate; in every
other case the parse succeeds, so failures inside individual blocks or
entries never fail the overall parse. -/
theorem parse_fails_iff_missing_or_unsupported :
    ∀ code : List Char,
      (∃ e, parseMongoGoCode code = .error e) ↔
        (varCapture collPat code = none ∨ varCapture opPat code = none ∨
          ∃ op, varCapture opPat code = some op ∧ op ≠ findChars ∧ op ≠ aggregateChars) := by
  intro code
  unfold parseMongoGoCode
  cases hc : varCapture collPat code with
  | none => simp
  | some coll =>
    cases ho : varCapture opPat code with
    | none => simp
    | some op =>
      by_cases hf : op = findChars
      · simp [hf]
      · by_cases ha : op = aggregateChars
        · have hne : aggregateChars ≠ findChars := by decide
          simp [hf, ha, hne]
        · simp [hf, ha]

/-- C5: an input containing only a matchable collection assignment and a
find operation assignment, with no FILTER, SORT, LIMIT or PROJECTION
block, parses successfully into a find operation with no filter, sort,
limit or projection, and the executor turns the absent filter into the
empty match-everything map. -/
theorem find_without_blocks_defaults :
    ∀ (code coll : List Char),
      varCapture collPat code = some coll →
      varCapture opPat code = some findChars →
      extractBlock filterStartP filterEndP code = none →
      extractBlock sortStartP sortEndP code = none →
      extractBlock limitStartP limitEndP code = none →
      extractBlock projStartP projEndP code = none →
      parseMongoGoCode code = .ok (.find (String.mk coll) ⟨none, none, none, none⟩)
        ∧ effectiveFilter none = GoMap.nil := by
  intro code coll h1 h2 h3 h4 h5 h6
  refine ⟨?_, rfl⟩
  unfold parseMongoGoCode parseFilterBlock parseDBlock parseLimitBlock
  rw [h1, h2, h3, h4, h5, h6]
  simp

/-- Witness for C5 at a concrete two-line find input with no blocks. -/
theorem find_without_blocks_defaults_witness :
    parseMongoGoCode c5Code = .ok (.find (String.mk ("users".data)) ⟨none, none, none, none⟩)
      ∧ effectiveFilter none = GoMap.nil :=
  find_without_blocks_defaults c5Code ("users".data)
    (by decide) (by decide) (by decide) (by decide) (by decide) (by decide)

theorem trimTail_append_one : ∀ (s : List Char) (c : Char),
    trimTail (s ++ [c]) = if goSpace c then trimTail s else s ++ [c] := by
  intro s c
  unfold trimTail
  simp only [List.reverse_append, List.reverse_cons, List.reverse_nil, List.nil_append,
    List.singleton_append, List.dropWhile_cons]
  split
  · rfl
  · simp

theorem goTrimSpace_wrapped_fix : ∀ (a q : List Char),
    trimHead (a ++ '\n' :: (q ++ '\n' :: fenceChars)) = a ++ '\n' :: (q ++ '\n' :: fenceChars) →
    goTrimSpace (a ++ '\n' :: (q ++ '\n' :: fenceChars)) = a ++ '\n' :: (q ++ '\n' :: fenceChars) := by
  intro a q hhead
  have hf : ('\n' :: fenceChars : List Char) = ['\n', '\x60', '\x60'] ++ ['\x60'] := rfl
  have hshape : a ++ '\n' :: (q ++ '\n' :: fenceChars) =
      (a ++ '\n' :: (q ++ ['\n', '\x60', '\x60'])) ++ ['\x60'] := by
    rw [hf]
    simp
  unfold goTrimSpace
  rw [hhead, hshape, trimTail_append_one, if_neg (by decide)]


/-- C8 counterexample: the live clean-up applied to an answer wrapped in a
sql code fence returns the fenced text unchanged — the leading fence
survives and the unfenced query is not recovered, so leading/trailing
code-fence sentinels are not removed by the program. -/
theorem generated_sql_keeps_fences :
    generateSQLCleanup (wrapSqlFence c8Query) = wrapSqlFence c8Query
    ∧ generateSQLCleanup (wrapSqlFence c8Query) ≠ c8Query
    ∧ fenceChars.isPrefixOf (generateSQLCleanup (wrapSqlFence c8Query)) = true :=
  ⟨by decide, by decide, by decide⟩

/-- C8 as amended: under the relational dialect the live clean-up of the
generated text removes surrounding whitespace and is otherwise verbatim —
it is exactly strings.TrimSpace — so an already-trimmed answer comes back
unchanged and a fence-wrapped answer comes back still wrapped (code-fence
sentinels are not stripped). -/
theorem generated_sql_trims_whitespace_only :
    (∀ q : List Char, trimHead q = q → trimTail q = q → generateSQLCleanup q = q)
    ∧ (∀ q : List Char, generateSQLCleanup (wrapSqlFence q) = wrapSqlFence q)
    ∧ (∀ q : List Char, generateSQLCleanup (wrapBareFence q) = wrapBareFence q) := by
  refine ⟨fun q h1 h2 => ?_, fun q => ?_, fun q => ?_⟩
  · unfold generateSQLCleanup goTrimSpace
    rw [h1, h2]
  · exact goTrimSpace_wrapped_fix fenceSql q rfl
  · exact goTrimSpace_wrapped_fix fenceChars q rfl

/-- Witness for the amended C8 at a concrete trimmed query string. -/
theorem generated_sql_trims_whitespace_only_witness :
    generateSQLCleanup c8Query = c8Query :=
  generated_sql_trims_whitespace_only.1 c8Query (by decide) (by decide)

end GoQuery
